import Mathlib

/-!
Shallow embedding of the usb-info repository (path parsing, trie index,
tree rendering) together with proofs of its specified properties.

Rust strings are modelled as `List Char`; `u8` values as `Nat` with
explicit `< 256` bounds where the Rust types enforce them; `HashMap` as
an association list with first-match lookup and in-place overwrite on
insert (iteration order of a `HashMap` is arbitrary, so every property
that touches iteration order is stated order-independently).
-/

abbrev Str := List Char

/-! Association-list model of HashMap: lookup and insert-overwrite. -/

def mapGet {K V : Type} [DecidableEq K] : List (K × V) → K → Option V
  | [], _ => none
  | (k0, v0) :: rest, k => if k0 = k then some v0 else mapGet rest k

def mapInsert {K V : Type} [DecidableEq K] : List (K × V) → K → V → List (K × V)
  | [], k, v => [(k, v)]
  | (k0, v0) :: rest, k, v =>
    if k0 = k then (k0, v) :: rest else (k0, v0) :: mapInsert rest k v

/-! Model of Rust `u8::from_str`: optional leading plus sign, then one or
more ASCII digits, value at most 255 (checked at every step, which for a
digit stream is equivalent to checking the final value). -/

def digitVal (c : Char) : Option Nat :=
  if '0' ≤ c ∧ c ≤ '9' then some (c.toNat - 48) else none

def parseU8Digits : Str → Nat → Option Nat
  | [], acc => some acc
  | c :: rest, acc =>
    match digitVal c with
    | none => none
    | some d => if acc * 10 + d ≤ 255 then parseU8Digits rest (acc * 10 + d) else none

def parseU8 (s : Str) : Option Nat :=
  match s with
  | [] => none
  | '+' :: rest => if rest = [] then none else parseU8Digits rest 0
  | _ => parseU8Digits s 0

/-! Model of Rust `Display` for `u8` (decimal, no leading zeros, no sign).
Structural fuel keeps the definition kernel-reducible; `n + 1` units of
fuel always suffice for a number with at most `n + 1` digits. -/

def natToDigitsCore : Nat → Nat → Str → Str
  | 0, _, acc => acc
  | fuel + 1, n, acc =>
    let acc1 := Char.ofNat (48 + n % 10) :: acc
    if n < 10 then acc1 else natToDigitsCore fuel (n / 10) acc1

def u8ToStr (n : Nat) : Str := natToDigitsCore (n + 1) n []

/-! Rust `str::split_once(':')` and `str::split('.')`. -/

def splitOnceColon : Str → Option (Str × Str)
  | [] => none
  | c :: rest =>
    if c = ':' then some ([], rest)
    else
      match splitOnceColon rest with
      | none => none
      | some (a, b) => some (c :: a, b)

def splitDots : Str → List Str
  | [] => [[]]
  | c :: rest =>
    if c = '.' then [] :: splitDots rest
    else
      match splitDots rest with
      | [] => [[c]]
      | s :: ss => (c :: s) :: ss

/-! Model of `Vec::join(".")` over already-rendered port strings. -/

def joinDots : List Str → Str
  | [] => []
  | [x] => x
  | x :: y :: ys => x ++ '.' :: joinDots (y :: ys)

/-! The DevicePath data model and its parse errors, from src/path.rs and
src/error.rs. -/

inductive DevicePathError : Type where
  | MissingBus : DevicePathError
  | InvalidBus : Str → DevicePathError
  | InvalidPort : Str → DevicePathError
  | InvalidFormat : DevicePathError
deriving DecidableEq

structure DevicePath : Type where
  bus : Nat
  ports : List Nat
deriving DecidableEq

/-- Validity carried by the Rust types: bus and every port fit in a u8. -/
def DevicePath.valid (p : DevicePath) : Prop :=
  p.bus < 256 ∧ ∀ x ∈ p.ports, x < 256

instance (p : DevicePath) : Decidable p.valid := by
  unfold DevicePath.valid; infer_instance

/-- Port-token parsing loop of `DevicePath::from_str`: collect into
`Result`, stopping at the first invalid token. -/
def parsePorts : List Str → Except DevicePathError (List Nat)
  | [] => Except.ok []
  | p :: ps =>
    match parseU8 p with
    | none => Except.error (DevicePathError.InvalidPort p)
    | some n => Except.map (fun l => n :: l) (parsePorts ps)

/-- Model of `DevicePath::from_str` (src/path.rs lines 111-139). -/
def DevicePath.fromStr (s : Str) : Except DevicePathError DevicePath :=
  match splitOnceColon s with
  | none => Except.error DevicePathError.InvalidFormat
  | some (busStr, portStr) =>
    if busStr = [] then Except.error DevicePathError.MissingBus
    else
      match parseU8 busStr with
      | none => Except.error (DevicePathError.InvalidBus busStr)
      | some bus =>
        if portStr = [] then Except.ok (DevicePath.mk bus [])
        else Except.map (fun ports => DevicePath.mk bus ports) (parsePorts (splitDots portStr))

/-- Model of `impl fmt::Display for DevicePath` (src/path.rs lines 141-158). -/
def DevicePath.toStr (p : DevicePath) : Str :=
  if p.ports = [] then u8ToStr p.bus ++ [':']
  else u8ToStr p.bus ++ ':' :: joinDots (p.ports.map u8ToStr)

/-! Facts about decimal rendering of u8 values, settled by finite check. -/

set_option maxRecDepth 100000 in
theorem parseU8_u8ToStr : ∀ n < 256, parseU8 (u8ToStr n) = some n := by decide

set_option maxRecDepth 100000 in
theorem u8ToStr_spec : ∀ n < 256,
    (':' ∉ u8ToStr n) ∧ ('.' ∉ u8ToStr n) ∧ u8ToStr n ≠ [] := by decide

/-! Splitting lemmas. -/

theorem splitOnceColon_of_not_mem {s : Str} (h : ':' ∉ s) : splitOnceColon s = none := by
  induction s with
  | nil => rfl
  | cons c rest ih =>
    have hc : c ≠ ':' := fun hh => h (hh ▸ List.mem_cons_self c rest)
    have hr : ':' ∉ rest := fun hh => h (List.mem_cons_of_mem c hh)
    simp [splitOnceColon, hc, ih hr]

theorem splitOnceColon_append {a : Str} (b : Str) (h : ':' ∉ a) :
    splitOnceColon (a ++ ':' :: b) = some (a, b) := by
  induction a with
  | nil => simp [splitOnceColon]
  | cons c rest ih =>
    have hc : c ≠ ':' := fun hh => h (hh ▸ List.mem_cons_self c rest)
    have hr : ':' ∉ rest := fun hh => h (List.mem_cons_of_mem c hh)
    simp [splitOnceColon, hc, ih hr]

theorem splitDots_of_not_mem {x : Str} (h : '.' ∉ x) : splitDots x = [x] := by
  induction x with
  | nil => rfl
  | cons c rest ih =>
    have hc : c ≠ '.' := fun hh => h (hh ▸ List.mem_cons_self c rest)
    have hr : '.' ∉ rest := fun hh => h (List.mem_cons_of_mem c hh)
    simp [splitDots, hc, ih hr]

theorem splitDots_append {x : Str} (t : Str) (h : '.' ∉ x) :
    splitDots (x ++ '.' :: t) = x :: splitDots t := by
  induction x with
  | nil => simp [splitDots]
  | cons c rest ih =>
    have hc : c ≠ '.' := fun hh => h (hh ▸ List.mem_cons_self c rest)
    have hr : '.' ∉ rest := fun hh => h (List.mem_cons_of_mem c hh)
    simp [splitDots, hc, ih hr]

theorem splitDots_joinDots {ports : List Nat} (hne : ports ≠ [])
    (hb : ∀ x ∈ ports, x < 256) :
    splitDots (joinDots (ports.map u8ToStr)) = ports.map u8ToStr := by
  induction ports with
  | nil => exact absurd rfl hne
  | cons p rest ih =>
    have hp : p < 256 := hb p (List.mem_cons_self p rest)
    have hdot : '.' ∉ u8ToStr p := (u8ToStr_spec p hp).2.1
    cases rest with
    | nil => simpa [joinDots] using splitDots_of_not_mem hdot
    | cons q qs =>
      have hrest : ∀ x ∈ q :: qs, x < 256 := fun x hx => hb x (List.mem_cons_of_mem p hx)
      have := ih (by simp) hrest
      simp only [List.map_cons, joinDots] at *
      rw [splitDots_append _ hdot, this]

theorem parsePorts_map {ports : List Nat} (hb : ∀ x ∈ ports, x < 256) :
    parsePorts (ports.map u8ToStr) = Except.ok ports := by
  induction ports with
  | nil => rfl
  | cons p rest ih =>
    have hp : p < 256 := hb p (List.mem_cons_self p rest)
    have hrest : ∀ x ∈ rest, x < 256 := fun x hx => hb x (List.mem_cons_of_mem p hx)
    simp [parsePorts, parseU8_u8ToStr p hp, ih hrest, Except.map]

/-- Round-trip helper shared by several claims: parsing the canonical
rendering of a valid path reproduces it. -/
theorem fromStr_toStr {p : DevicePath} (hp : p.valid) :
    DevicePath.fromStr p.toStr = Except.ok p := by
  obtain ⟨hbus, hports⟩ := hp
  have hb := u8ToStr_spec p.bus hbus
  cases hps : p.ports with
  | nil =>
    have : p.toStr = u8ToStr p.bus ++ ':' :: [] := by simp [DevicePath.toStr, hps]
    rw [this]
    rw [DevicePath.fromStr, splitOnceColon_append _ hb.1]
    simp [hb.2.2, parseU8_u8ToStr p.bus hbus]
    cases p
    simp_all
  | cons q qs =>
    have hne : p.ports ≠ [] := by simp [hps]
    have : p.toStr = u8ToStr p.bus ++ ':' :: joinDots (p.ports.map u8ToStr) := by
      simp [DevicePath.toStr, hne]
    rw [this]
    rw [DevicePath.fromStr, splitOnceColon_append _ hb.1]
    have hjne : joinDots (p.ports.map u8ToStr) ≠ [] := by
      have hq : q < 256 := hports q (by simp [hps])
      have := (u8ToStr_spec q hq).2.2
      cases qs with
      | nil => simpa [hps, joinDots] using this
      | cons r rs =>
        simp [hps, joinDots]
    simp [hb.2.2, parseU8_u8ToStr p.bus hbus, hjne,
      splitDots_joinDots hne hports, parsePorts_map hports, Except.map]

/-- C1: parsing the canonical rendering of any valid path (bus and all
ports in 0-255) succeeds and returns the original path. -/
theorem roundtrip_parse_render (bus : Nat) (ports : List Nat)
    (hbus : bus < 256) (hports : ∀ x ∈ ports, x < 256) :
    DevicePath.fromStr (DevicePath.toStr (DevicePath.mk bus ports)) =
      Except.ok (DevicePath.mk bus ports) :=
  fromStr_toStr ⟨hbus, hports⟩

/-- C1 witness: the round trip at the concrete path 1:2.3.4. -/
theorem roundtrip_parse_render_witness :
    DevicePath.fromStr (DevicePath.toStr (DevicePath.mk 1 [2, 3, 4])) =
      Except.ok (DevicePath.mk 1 [2, 3, 4]) :=
  roundtrip_parse_render 1 [2, 3, 4] (by decide) (by decide)

/-! Error taxonomy of the parser. -/

theorem parseU8_nil : parseU8 [] = none := rfl

theorem parsePorts_all_ok {l : List Str} (h : ∀ tok ∈ l, parseU8 tok ≠ none) :
    ∃ ports, parsePorts l = Except.ok ports := by
  induction l with
  | nil => exact ⟨[], rfl⟩
  | cons t ts ih =>
    have ht := h t (List.mem_cons_self t ts)
    cases hpt : parseU8 t with
    | none => exact absurd hpt ht
    | some n =>
      obtain ⟨ports, hps⟩ := ih (fun tok htok => h tok (List.mem_cons_of_mem t htok))
      exact ⟨n :: ports, by simp [parsePorts, hpt, hps, Except.map]⟩

theorem parsePorts_first_bad {l : List Str} (h : ∃ tok ∈ l, parseU8 tok = none) :
    ∃ tok, tok ∈ l ∧ parseU8 tok = none ∧
      parsePorts l = Except.error (DevicePathError.InvalidPort tok) := by
  induction l with
  | nil => simp at h
  | cons t ts ih =>
    cases hpt : parseU8 t with
    | none => exact ⟨t, List.mem_cons_self t ts, hpt, by simp [parsePorts, hpt]⟩
    | some n =>
      obtain ⟨tok, htok, hbad⟩ := h
      rcases List.mem_cons.mp htok with rfl | hmem
      · exact absurd hpt (by simp [hbad])
      · obtain ⟨tok2, hmem2, hbad2, herr⟩ := ih ⟨tok, hmem, hbad⟩
        exact ⟨tok2, List.mem_cons_of_mem t hmem2, hbad2,
          by simp [parsePorts, hpt, herr, Except.map]⟩

/-- C4: the parser's error behavior, case by case. An input without a
colon fails with InvalidFormat; an empty bus part fails with MissingBus; a
non-empty bus part that is not a u8 fails with InvalidBus carrying that
part; a bad port token fails with InvalidPort carrying the token; all
other inputs succeed, an empty remainder yielding an empty port list. -/
theorem parse_error_cases (s : Str) :
    (':' ∉ s → DevicePath.fromStr s = Except.error DevicePathError.InvalidFormat) ∧
    (∀ rest : Str, s = ':' :: rest →
      DevicePath.fromStr s = Except.error DevicePathError.MissingBus) ∧
    (∀ busStr portStr : Str, s = busStr ++ ':' :: portStr → ':' ∉ busStr → busStr ≠ [] →
      parseU8 busStr = none →
      DevicePath.fromStr s = Except.error (DevicePathError.InvalidBus busStr)) ∧
    (∀ busStr : Str, s = busStr ++ [':'] → ':' ∉ busStr → ∀ b, parseU8 busStr = some b →
      DevicePath.fromStr s = Except.ok (DevicePath.mk b [])) ∧
    (∀ busStr portStr : Str, s = busStr ++ ':' :: portStr → ':' ∉ busStr → portStr ≠ [] →
      ∀ b, parseU8 busStr = some b →
      ((∃ tok ∈ splitDots portStr, parseU8 tok = none) →
        ∃ tok, tok ∈ splitDots portStr ∧ parseU8 tok = none ∧
          DevicePath.fromStr s = Except.error (DevicePathError.InvalidPort tok)) ∧
      ((∀ tok ∈ splitDots portStr, parseU8 tok ≠ none) →
        ∃ ports, DevicePath.fromStr s = Except.ok (DevicePath.mk b ports))) := by
  refine ⟨?_, ?_, ?_, ?_, ?_⟩
  · intro h
    rw [DevicePath.fromStr, splitOnceColon_of_not_mem h]
  · intro rest hs
    subst hs
    simp [DevicePath.fromStr, splitOnceColon]
  · intro busStr portStr hs hnc hne hbad
    subst hs
    rw [DevicePath.fromStr, splitOnceColon_append _ hnc]
    simp [hne, hbad]
  · intro busStr hs hnc b hb
    subst hs
    have hne : busStr ≠ [] := by
      intro hcon
      rw [hcon] at hb
      exact Option.noConfusion (parseU8_nil ▸ hb)
    have : busStr ++ [':'] = busStr ++ ':' :: ([] : Str) := rfl
    rw [DevicePath.fromStr, this, splitOnceColon_append _ hnc]
    simp [hne, hb]
  · intro busStr portStr hs hnc hpne b hb
    subst hs
    have hne : busStr ≠ [] := by
      intro hcon
      rw [hcon] at hb
      exact Option.noConfusion (parseU8_nil ▸ hb)
    constructor
    · intro hex
      obtain ⟨tok, hmem, hbad, herr⟩ := parsePorts_first_bad hex
      refine ⟨tok, hmem, hbad, ?_⟩
      rw [DevicePath.fromStr, splitOnceColon_append _ hnc]
      simp [hne, hb, hpne, herr, Except.map]
    · intro hall
      obtain ⟨ports, hok⟩ := parsePorts_all_ok hall
      refine ⟨ports, ?_⟩
      rw [DevicePath.fromStr, splitOnceColon_append _ hnc]
      simp [hne, hb, hpne, hok, Except.map]

/-- C4 witness: the InvalidBus case at the concrete input "abc:1". -/
theorem parse_error_cases_witness :
    DevicePath.fromStr ['a', 'b', 'c', ':', '1'] =
      Except.error (DevicePathError.InvalidBus ['a', 'b', 'c']) :=
  (parse_error_cases ['a', 'b', 'c', ':', '1']).2.2.1 ['a', 'b', 'c'] ['1']
    rfl (by decide) (by decide) (by decide)

/-! The PortTree trie from src/tree.rs. Children are an association list
standing for the HashMap from port number to child; HashMap value
iteration has no specified order, and every order-sensitive statement
below is made order-independent or goes through the explicitly sorted
child_ports. -/

inductive PortTree (T : Type) : Type where
  | mk : Option T → List (Nat × PortTree T) → PortTree T

def PortTree.value {T : Type} : PortTree T → Option T
  | PortTree.mk v _ => v

def PortTree.children {T : Type} : PortTree T → List (Nat × PortTree T)
  | PortTree.mk _ cs => cs

def PortTree.new {T : Type} : PortTree T := PortTree.mk none []

/-- Model of `PortTree::insert` (src/tree.rs lines 36-45). -/
def PortTree.insert {T : Type} : PortTree T → List Nat → T → PortTree T
  | PortTree.mk _ cs, [], v => PortTree.mk (some v) cs
  | PortTree.mk val cs, p :: ps, v =>
    PortTree.mk val
      (mapInsert cs p (PortTree.insert ((mapGet cs p).getD PortTree.new) ps v))

/-- Model of `PortTree::get` (src/tree.rs lines 48-54). -/
def PortTree.get {T : Type} : PortTree T → List Nat → Option (PortTree T)
  | t, [] => some t
  | t, p :: ps =>
    match mapGet t.children p with
    | none => none
    | some c => PortTree.get c ps

mutual

/-- Model of `PortTree::descendants` (src/tree.rs lines 57-66): current
node's payload first, then each child's descendants, children visited in
the (arbitrary) order of the underlying map. -/
def PortTree.descendants {T : Type} : PortTree T → List T
  | PortTree.mk v cs => v.toList ++ descendantsList cs

def descendantsList {T : Type} : List (Nat × PortTree T) → List T
  | [] => []
  | c :: rest => PortTree.descendants c.2 ++ descendantsList rest

end

/-- Insertion sort standing for Rust's `Vec::sort` on port numbers. -/
def insertSorted (x : Nat) : List Nat → List Nat
  | [] => [x]
  | y :: ys => if x ≤ y then x :: y :: ys else y :: insertSorted x ys

def sortNat (l : List Nat) : List Nat := l.foldr insertSorted []

/-- Model of `PortTree::child_ports` (src/tree.rs lines 77-81). -/
def PortTree.childPorts {T : Type} (t : PortTree T) : List Nat :=
  sortNat (t.children.map Prod.fst)

/-- Payload stored at an exact location, the view of `get` that the frame
property C6 speaks about. -/
def PortTree.valueAt {T : Type} (t : PortTree T) (ps : List Nat) : Option T :=
  (t.get ps).bind PortTree.value

/-! Association-list map lemmas. -/

theorem mapGet_mapInsert {K V : Type} [DecidableEq K] (m : List (K × V)) (k k1 : K) (v : V) :
    mapGet (mapInsert m k v) k1 = if k = k1 then some v else mapGet m k1 := by
  induction m with
  | nil => by_cases h : k = k1 <;> simp [mapInsert, mapGet, h]
  | cons e rest ih =>
    obtain ⟨k0, v0⟩ := e
    by_cases h0 : k0 = k
    · subst h0
      by_cases h1 : k0 = k1 <;> simp [mapInsert, mapGet, h1]
    · by_cases h1 : k0 = k1
      · subst h1
        have : k ≠ k0 := fun hh => h0 hh.symm
        simp [mapInsert, mapGet, h0, this]
      · simp [mapInsert, mapGet, h0, h1, ih]

theorem mapGet_mem {K V : Type} [DecidableEq K] {m : List (K × V)} {k : K} {v : V}
    (h : mapGet m k = some v) : (k, v) ∈ m := by
  induction m with
  | nil => simp [mapGet] at h
  | cons e rest ih =>
    obtain ⟨k0, v0⟩ := e
    by_cases h0 : k0 = k
    · subst h0
      simp [mapGet] at h
      simp [h]
    · simp [mapGet, h0] at h
      exact List.mem_cons_of_mem _ (ih h)

theorem mapGet_isSome_of_mem_fst {K V : Type} [DecidableEq K] {m : List (K × V)} {k : K}
    (h : k ∈ m.map Prod.fst) : (mapGet m k).isSome := by
  induction m with
  | nil => simp at h
  | cons e rest ih =>
    obtain ⟨k0, v0⟩ := e
    by_cases h0 : k0 = k
    · simp [mapGet, h0]
    · have h1 : k ∈ rest.map Prod.fst := by
        rcases List.mem_map.mp h with ⟨x, hx, hfst⟩
        rcases List.mem_cons.mp hx with rfl | hx2
        · exact absurd hfst h0
        · exact List.mem_map.mpr ⟨x, hx2, hfst⟩
      simpa [mapGet, h0] using ih h1

theorem mapInsert_map_fst {K V : Type} [DecidableEq K] (m : List (K × V)) (k : K) (v : V) :
    (mapInsert m k v).map Prod.fst =
      if k ∈ m.map Prod.fst then m.map Prod.fst else m.map Prod.fst ++ [k] := by
  induction m with
  | nil => simp [mapInsert]
  | cons e rest ih =>
    obtain ⟨k0, v0⟩ := e
    by_cases h0 : k0 = k
    · subst h0
      simp [mapInsert]
    · have : k ≠ k0 := fun hh => h0 hh.symm
      by_cases hmem : k ∈ rest.map Prod.fst <;>
        simp [mapInsert, h0, this, hmem, ih]

/-! Frame lemmas for trie insertion, shared by C6, C2 and C3. -/

theorem PortTree.get_new {T : Type} (qs : List Nat) :
    (PortTree.new : PortTree T).get qs = if qs = [] then some PortTree.new else none := by
  cases qs <;> simp [PortTree.get, PortTree.new, PortTree.children, mapGet]

theorem PortTree.valueAt_new {T : Type} (qs : List Nat) :
    (PortTree.new : PortTree T).valueAt qs = none := by
  rw [PortTree.valueAt, PortTree.get_new]
  cases qs <;> simp [PortTree.new, PortTree.value]

theorem PortTree.get_insert_nil {T : Type} (t : PortTree T) (v : T) :
    PortTree.insert t [] v = PortTree.mk (some v) t.children := by
  cases t
  rfl

theorem PortTree.valueAt_insert {T : Type} (t : PortTree T) (ps : List Nat) (v : T)
    (qs : List Nat) :
    PortTree.valueAt (PortTree.insert t ps v) qs =
      if qs = ps then some v else PortTree.valueAt t qs := by
  induction ps generalizing t qs with
  | nil =>
    cases t with
    | mk val cs =>
      cases qs with
      | nil => simp [PortTree.insert, PortTree.valueAt, PortTree.get, PortTree.value]
      | cons q qs1 =>
        simp [PortTree.insert, PortTree.valueAt, PortTree.get, PortTree.children]
  | cons p ps1 ih =>
    cases t with
    | mk val cs =>
      cases qs with
      | nil =>
        simp [PortTree.insert, PortTree.valueAt, PortTree.get, PortTree.value]
      | cons q qs1 =>
        by_cases hq : q = p
        · subst hq
          have hgi : mapGet
              (mapInsert cs q (PortTree.insert ((mapGet cs q).getD PortTree.new) ps1 v)) q =
              some (PortTree.insert ((mapGet cs q).getD PortTree.new) ps1 v) := by
            rw [mapGet_mapInsert]
            simp
          simp only [PortTree.insert, PortTree.valueAt, PortTree.get, PortTree.children, hgi]
          rw [show ((PortTree.get (PortTree.insert ((mapGet cs q).getD PortTree.new) ps1 v)
            qs1).bind PortTree.value) =
            PortTree.valueAt (PortTree.insert ((mapGet cs q).getD PortTree.new) ps1 v) qs1
            from rfl]
          rw [ih]
          by_cases hqs : qs1 = ps1
          · simp [hqs]
          · have : q :: qs1 ≠ q :: ps1 := by simp [hqs]
            simp only [hqs, if_neg this, if_neg hqs]
            cases hg : mapGet cs q with
            | none =>
              simp [hg, Option.getD, PortTree.valueAt, PortTree.get, PortTree.children]
              intro a ha
              rw [PortTree.get_new qs1] at ha
              by_cases hq1 : qs1 = []
              · rw [if_pos hq1] at ha
                injection ha with ha2
                rw [ha2.symm]
                rfl
              · rw [if_neg hq1] at ha
                exact absurd ha (by simp)
            | some c => simp [PortTree.valueAt, PortTree.get, Option.getD, hg]
        · have : q :: qs1 ≠ p :: ps1 := by simp [hq]
          simp only [PortTree.insert, PortTree.valueAt, PortTree.get, PortTree.children,
            mapGet_mapInsert, if_neg this]
          have hpq : p ≠ q := fun hh => hq hh.symm
          simp [if_neg hpq]

theorem PortTree.get_insert_isSome {T : Type} (t : PortTree T) (ps : List Nat) (v : T)
    (qs : List Nat) :
    (PortTree.get (PortTree.insert t ps v) qs).isSome ↔
      (PortTree.get t qs).isSome ∨ ps.take qs.length = qs := by
  induction ps generalizing t qs with
  | nil =>
    cases t with
    | mk val cs =>
      cases qs with
      | nil => simp [PortTree.insert, PortTree.get]
      | cons q qs1 => simp [PortTree.insert, PortTree.get, PortTree.children]
  | cons p ps1 ih =>
    cases t with
    | mk val cs =>
      cases qs with
      | nil => simp [PortTree.insert, PortTree.get]
      | cons q qs1 =>
        by_cases hq : q = p
        · subst hq
          have hgi : mapGet
              (mapInsert cs q (PortTree.insert ((mapGet cs q).getD PortTree.new) ps1 v)) q =
              some (PortTree.insert ((mapGet cs q).getD PortTree.new) ps1 v) := by
            rw [mapGet_mapInsert]
            simp
          simp only [PortTree.insert, PortTree.get, PortTree.children, hgi,
            List.length_cons, List.take_succ_cons, List.cons.injEq, true_and]
          rw [ih]
          cases hg : mapGet cs q with
          | none =>
            simp only [hg, Option.getD, PortTree.get_new, PortTree.get, PortTree.children]
            cases qs1 <;> simp
          | some c => simp [PortTree.get, Option.getD, hg]
        · have hpq : p ≠ q := fun hh => hq hh.symm
          have hne : ¬(p :: ps1).take (q :: qs1).length = q :: qs1 := by
            simp only [List.length_cons, List.take_succ_cons, List.cons.injEq, not_and]
            intro hcon
            exact absurd hcon hpq
          simp only [PortTree.insert, PortTree.get, PortTree.children, mapGet_mapInsert,
            if_neg hpq, hne, or_false]

/-- C6: trie insertion creates any missing node along the inserted path,
stores the value at the terminal node, and leaves the payload at every
other location unchanged. -/
theorem trie_insert_frame {T : Type} (t : PortTree T) (ps : List Nat) (v : T) :
    (PortTree.valueAt (PortTree.insert t ps v) ps = some v) ∧
    (∀ qs : List Nat, ps.take qs.length = qs →
      (PortTree.get (PortTree.insert t ps v) qs).isSome) ∧
    (∀ qs : List Nat, qs ≠ ps →
      PortTree.valueAt (PortTree.insert t ps v) qs = PortTree.valueAt t qs) := by
  refine ⟨?_, ?_, ?_⟩
  · rw [PortTree.valueAt_insert]
    simp
  · intro qs hqs
    rw [PortTree.get_insert_isSome]
    exact Or.inr hqs
  · intro qs hqs
    rw [PortTree.valueAt_insert, if_neg hqs]

/-- C6 witness: inserting at [1, 2] does not disturb the payload at the
ancestor [1]. -/
theorem trie_insert_frame_witness :
    PortTree.valueAt
        (PortTree.insert (PortTree.insert PortTree.new [1] 5) [1, 2] 7) [1] =
      PortTree.valueAt (PortTree.insert (PortTree.new (T := Nat)) [1] 5) [1] :=
  (trie_insert_frame (PortTree.insert PortTree.new [1] 5) [1, 2] 7).2.2 [1] (by decide)

/-! Wellformedness of tries: every child map has pairwise distinct keys.
Rust's HashMap guarantees this by construction; the association-list model
must carry it as an invariant. -/

inductive PortTree.WFt {T : Type} : PortTree T → Prop where
  | mk : ∀ (v : Option T) (cs : List (Nat × PortTree T)),
      (cs.map Prod.fst).Nodup → (∀ c ∈ cs, PortTree.WFt c.2) →
      PortTree.WFt (PortTree.mk v cs)

theorem PortTree.myInduction {T : Type} {P : PortTree T → Prop}
    (step : ∀ (v : Option T) (cs : List (Nat × PortTree T)),
      (∀ c ∈ cs, P c.2) → P (PortTree.mk v cs)) :
    ∀ pt : PortTree T, P pt
  | PortTree.mk v cs => step v cs (fun c hc => PortTree.myInduction step c.2)
termination_by pt => sizeOf pt
decreasing_by
  have h1 : sizeOf c < sizeOf cs := List.sizeOf_lt_of_mem hc
  obtain ⟨a, b⟩ := c
  simp only [Prod.mk.sizeOf_spec, PortTree.mk.sizeOf_spec] at h1 ⊢
  omega

theorem mapGet_of_mem_nodup {K V : Type} [DecidableEq K] {m : List (K × V)} {k : K} {v : V}
    (hmem : (k, v) ∈ m) (hnd : (m.map Prod.fst).Nodup) : mapGet m k = some v := by
  induction m with
  | nil => simp at hmem
  | cons e rest ih =>
    obtain ⟨k0, v0⟩ := e
    simp only [List.map_cons, List.nodup_cons] at hnd
    rcases List.mem_cons.mp hmem with heq | hmem2
    · injection heq with h1 h2
      simp [mapGet, h1.symm, h2]
    · have hk : k0 ≠ k := by
        intro hcon
        subst hcon
        exact hnd.1 (List.mem_map.mpr ⟨(k0, v), hmem2, rfl⟩)
      simp [mapGet, hk, ih hmem2 hnd.2]

theorem mem_mapInsert {K V : Type} [DecidableEq K] {m : List (K × V)} {k : K} {v : V}
    {c : K × V} (h : c ∈ mapInsert m k v) : c = (k, v) ∨ c ∈ m := by
  induction m with
  | nil => simpa [mapInsert] using h
  | cons e rest ih =>
    obtain ⟨k0, v0⟩ := e
    by_cases h0 : k0 = k
    · subst h0
      simp only [mapInsert, if_pos rfl] at h
      rcases List.mem_cons.mp h with heq | hmem
      · exact Or.inl heq
      · exact Or.inr (List.mem_cons_of_mem _ hmem)
    · simp only [mapInsert, if_neg h0] at h
      rcases List.mem_cons.mp h with heq | hmem
      · exact Or.inr (heq ▸ List.mem_cons_self _ _)
      · rcases ih hmem with h2 | h2
        · exact Or.inl h2
        · exact Or.inr (List.mem_cons_of_mem _ h2)

theorem nodup_mapInsert {K V : Type} [DecidableEq K] {m : List (K × V)} (k : K) (v : V)
    (hnd : (m.map Prod.fst).Nodup) : ((mapInsert m k v).map Prod.fst).Nodup := by
  rw [mapInsert_map_fst]
  by_cases hmem : k ∈ m.map Prod.fst
  · simpa [hmem] using hnd
  · simp only [hmem, if_neg]
    simp [List.nodup_append, hnd, hmem]

theorem PortTree.wf_new {T : Type} : PortTree.WFt (PortTree.new : PortTree T) :=
  PortTree.WFt.mk none [] (by simp) (by simp)

theorem PortTree.wf_insert {T : Type} {t : PortTree T} (hwf : PortTree.WFt t)
    (ps : List Nat) (v : T) : PortTree.WFt (PortTree.insert t ps v) := by
  induction ps generalizing t with
  | nil =>
    cases hwf with
    | mk val cs hnd hch => exact PortTree.WFt.mk (some v) cs hnd hch
  | cons p ps1 ih =>
    cases hwf with
    | mk val cs hnd hch =>
      refine PortTree.WFt.mk val _ (nodup_mapInsert p _ hnd) ?_
      intro c hc
      rcases mem_mapInsert hc with heq | hmem
      · subst heq
        cases hg : mapGet cs p with
        | none => exact ih (by simpa [hg] using PortTree.wf_new)
        | some c0 =>
          have hc0 : (p, c0) ∈ cs := mapGet_mem hg
          exact ih (by simpa [hg] using hch (p, c0) hc0)
      · exact hch c hmem

/-! Characterization of descendant collection: under wellformedness, the
collected payloads are exactly the payloads reachable at some location. -/

theorem mem_descendantsList {T : Type} {cs : List (Nat × PortTree T)} {k : T} :
    k ∈ descendantsList cs ↔ ∃ c ∈ cs, k ∈ PortTree.descendants c.2 := by
  induction cs with
  | nil => simp [descendantsList]
  | cons c rest ih =>
    simp only [descendantsList, List.mem_append, ih]
    constructor
    · rintro (h | ⟨c2, hc2, hk⟩)
      · exact ⟨c, List.mem_cons_self c rest, h⟩
      · exact ⟨c2, List.mem_cons_of_mem c hc2, hk⟩
    · rintro ⟨c2, hc2, hk⟩
      rcases List.mem_cons.mp hc2 with rfl | hmem
      · exact Or.inl hk
      · exact Or.inr ⟨c2, hmem, hk⟩

theorem mem_descendants_iff {T : Type} {pt : PortTree T} (hwf : PortTree.WFt pt) {k : T} :
    k ∈ PortTree.descendants pt ↔ ∃ qs, PortTree.valueAt pt qs = some k := by
  induction pt using PortTree.myInduction with
  | step v cs ih =>
    cases hwf with
    | mk v cs hnd hch =>
      simp only [PortTree.descendants, List.mem_append, mem_descendantsList]
      constructor
      · rintro (hv | ⟨c, hc, hk⟩)
        · refine ⟨[], ?_⟩
          simp only [Option.mem_toList, Option.mem_def] at hv
          simp [PortTree.valueAt, PortTree.get, PortTree.value, hv]
        · obtain ⟨qs, hqs⟩ := (ih c hc (hch c hc)).mp hk
          refine ⟨c.1 :: qs, ?_⟩
          have hg : mapGet cs c.1 = some c.2 := by
            obtain ⟨c1, c2⟩ := c
            exact mapGet_of_mem_nodup hc hnd
          simp [PortTree.valueAt, PortTree.get, PortTree.children, hg]
          exact hqs
      · rintro ⟨qs, hqs⟩
        cases qs with
        | nil =>
          simp only [PortTree.valueAt, PortTree.get, Option.bind, PortTree.value] at hqs
          exact Or.inl (by simp [hqs])
        | cons q qs1 =>
          simp only [PortTree.valueAt, PortTree.get, PortTree.children] at hqs
          cases hg : mapGet cs q with
          | none => rw [hg] at hqs; simp at hqs
          | some c =>
            rw [hg] at hqs
            have hcmem : (q, c) ∈ cs := mapGet_mem hg
            have hk : k ∈ PortTree.descendants c := by
              have := (ih (q, c) hcmem (hch (q, c) hcmem)).mpr ⟨qs1, hqs⟩
              exact this
            exact Or.inr ⟨(q, c), hcmem, hk⟩

theorem PortTree.get_append {T : Type} (t : PortTree T) (as bs : List Nat) :
    PortTree.get t (as ++ bs) = (PortTree.get t as).bind (fun n => PortTree.get n bs) := by
  induction as generalizing t with
  | nil => simp [PortTree.get]
  | cons a as1 ih =>
    simp only [List.cons_append, PortTree.get]
    cases mapGet t.children a with
    | none => simp
    | some c => simp [ih]

/-! The UsbTree hierarchical index from src/tree.rs: a flat map from
canonical path string to payload plus one key-trie per bus. -/

inductive UsbTreeError : Type where
  | ListDevices : Str → UsbTreeError
  | DeviceNotFound : Str → UsbTreeError
  | InvalidPath : DevicePathError → UsbTreeError
deriving DecidableEq

structure UsbTree (T : Type) : Type where
  devices : List (Str × T)
  tree : List (Str × PortTree Str)

def UsbTree.empty {T : Type} : UsbTree T := UsbTree.mk [] []

/-- Model of `UsbTree::insert_path` (src/tree.rs lines 119-126): store the
value under the canonical key, then store the key in the bus's trie,
creating the trie on demand (`entry(..).or_default()`). -/
def UsbTree.insertPath {T : Type} (t : UsbTree T) (p : DevicePath) (v : T) : UsbTree T :=
  UsbTree.mk
    (mapInsert t.devices p.toStr v)
    (mapInsert t.tree (u8ToStr p.bus)
      (PortTree.insert ((mapGet t.tree (u8ToStr p.bus)).getD PortTree.new) p.ports p.toStr))

/-- Model of `UsbTree::insert` (src/tree.rs lines 129-133): the bus string
is parsed as u8 and silently defaulted to 0 on failure. -/
def UsbTree.insert {T : Type} (t : UsbTree T) (bus : Str) (ports : List Nat) (v : T) :
    UsbTree T :=
  UsbTree.insertPath t (DevicePath.mk ((parseU8 bus).getD 0) ports) v

/-- Model of `UsbTree::get_by_path` (src/tree.rs lines 136-138). -/
def UsbTree.getByPath {T : Type} (t : UsbTree T) (p : DevicePath) : Option T :=
  mapGet t.devices p.toStr

/-- Model of `UsbTree::get` (src/tree.rs lines 141-151): literal lookup
first, then parse and retry with the canonical form. -/
def UsbTree.get {T : Type} (t : UsbTree T) (s : Str) : Option T :=
  match mapGet t.devices s with
  | some v => some v
  | none =>
    match DevicePath.fromStr s with
    | Except.ok p => mapGet t.devices p.toStr
    | Except.error _ => none

/-- Model of `UsbTree::try_get` (src/tree.rs lines 154-157). -/
def UsbTree.tryGet {T : Type} (t : UsbTree T) (s : Str) : Except UsbTreeError T :=
  match UsbTree.get t s with
  | some v => Except.ok v
  | none => Except.error (UsbTreeError.DeviceNotFound s)

/-- Model of `UsbTree::get_subtree_by_path` (src/tree.rs lines 176-187). -/
def UsbTree.getSubtreeByPath {T : Type} (t : UsbTree T) (p : DevicePath) : List T :=
  match mapGet t.tree (u8ToStr p.bus) with
  | none => []
  | some pt =>
    match PortTree.get pt p.ports with
    | none => []
    | some node =>
      (PortTree.descendants node).filterMap (fun k => mapGet t.devices k)

/-- A finite insertion history applied to a tree, first element first;
the model of any sequence of `insert_path` calls. -/
def applyInserts {T : Type} (t : UsbTree T) : List (DevicePath × T) → UsbTree T
  | [] => t
  | op :: rest => applyInserts (UsbTree.insertPath t op.1 op.2) rest

/-- The last value inserted at path `p` during a history (later entries
override earlier ones). -/
def lastInsertAt {T : Type} : List (DevicePath × T) → DevicePath → Option T
  | [], _ => none
  | op :: rest, p =>
    match lastInsertAt rest p with
    | some v => some v
    | none => if op.1 = p then some op.2 else none

/-- The last value inserted under canonical key `k` during a history. -/
def lastWriteKey {T : Type} : List (DevicePath × T) → Str → Option T
  | [], _ => none
  | op :: rest, k =>
    match lastWriteKey rest k with
    | some v => some v
    | none => if op.1.toStr = k then some op.2 else none

/-- C9: the convenience insert with an unparsable bus string silently
defaults the bus to 0, behaving exactly as insert_path at a path with bus
0 and the same ports. -/
theorem insert_unparsable_bus_defaults_to_zero {T : Type} (t : UsbTree T) (bus : Str)
    (ports : List Nat) (v : T) (hbad : parseU8 bus = none) :
    UsbTree.insert t bus ports v = UsbTree.insertPath t (DevicePath.mk 0 ports) v := by
  rw [UsbTree.insert, hbad]
  rfl

/-- C9 witness: inserting with bus string "abc" lands at bus 0. -/
theorem insert_unparsable_bus_defaults_to_zero_witness :
    UsbTree.insert (UsbTree.empty (T := Nat)) ['a', 'b', 'c'] [2] 7 =
      UsbTree.insertPath UsbTree.empty (DevicePath.mk 0 [2]) 7 :=
  insert_unparsable_bus_defaults_to_zero UsbTree.empty ['a', 'b', 'c'] [2] 7 (by decide)

/-- C5: string lookup tries the literal key first, then falls back to the
parsed path's canonical key; try_get agrees with get and reports
DeviceNotFound carrying the original string exactly on a miss. -/
theorem get_string_fallback {T : Type} (t : UsbTree T) (s : Str) :
    (∀ v, mapGet t.devices s = some v → UsbTree.get t s = some v) ∧
    (∀ p, mapGet t.devices s = none → DevicePath.fromStr s = Except.ok p →
      UsbTree.get t s = mapGet t.devices p.toStr) ∧
    (∀ e, mapGet t.devices s = none → DevicePath.fromStr s = Except.error e →
      UsbTree.get t s = none) ∧
    (∀ v, UsbTree.get t s = some v → UsbTree.tryGet t s = Except.ok v) ∧
    (UsbTree.get t s = none →
      UsbTree.tryGet t s = Except.error (UsbTreeError.DeviceNotFound s)) := by
  refine ⟨?_, ?_, ?_, ?_, ?_⟩
  · intro v hv
    simp [UsbTree.get, hv]
  · intro p hmiss hp
    simp [UsbTree.get, hmiss, hp]
  · intro e hmiss he
    simp [UsbTree.get, hmiss, he]
  · intro v hv
    simp [UsbTree.tryGet, hv]
  · intro hv
    simp [UsbTree.tryGet, hv]

/-- C5 witness: the non-canonical spelling "01:2" (leading zero) resolves
to the entry stored under the canonical key "1:2". -/
theorem get_string_fallback_witness :
    UsbTree.get (UsbTree.insertPath (UsbTree.empty (T := Nat)) (DevicePath.mk 1 [2]) 9)
        ['0', '1', ':', '2'] =
      mapGet (UsbTree.insertPath (UsbTree.empty (T := Nat))
        (DevicePath.mk 1 [2]) 9).devices (DevicePath.toStr (DevicePath.mk 1 [2])) := by
  have h := (get_string_fallback
    (UsbTree.insertPath (UsbTree.empty (T := Nat)) (DevicePath.mk 1 [2]) 9)
    ['0', '1', ':', '2']).2.1 (DevicePath.mk 1 [2]) (by decide) (by rfl)
  exact h

/-! Consistency of the double index (claim C2). -/

theorem toStr_inj {p q : DevicePath} (hp : p.valid) (hq : q.valid)
    (h : p.toStr = q.toStr) : p = q := by
  have h1 : DevicePath.fromStr p.toStr = Except.ok p := fromStr_toStr hp
  have h2 : DevicePath.fromStr q.toStr = Except.ok q := fromStr_toStr hq
  rw [h, h2] at h1
  injection h1 with h3
  exact h3.symm

theorem devices_applyInserts {T : Type} (ops : List (DevicePath × T)) (t : UsbTree T)
    (k : Str) :
    mapGet (applyInserts t ops).devices k =
      match lastWriteKey ops k with
      | some v => some v
      | none => mapGet t.devices k := by
  induction ops generalizing t with
  | nil => simp [applyInserts, lastWriteKey]
  | cons op rest ih =>
    show mapGet (applyInserts (UsbTree.insertPath t op.1 op.2) rest).devices k = _
    rw [ih]
    have hdev : mapGet (UsbTree.insertPath t op.1 op.2).devices k =
        if op.1.toStr = k then some op.2 else mapGet t.devices k := by
      simp [UsbTree.insertPath, mapGet_mapInsert]
    cases hlast : lastWriteKey rest k with
    | some v => simp [lastWriteKey, hlast]
    | none =>
      rw [hdev]
      by_cases hc : op.1.toStr = k <;> simp [lastWriteKey, hlast, hc]

theorem lastWriteKey_eq_lastInsertAt {T : Type} {ops : List (DevicePath × T)}
    (hv : ∀ op ∈ ops, op.1.valid) {p : DevicePath} (hp : p.valid) :
    lastWriteKey ops p.toStr = lastInsertAt ops p := by
  induction ops with
  | nil => rfl
  | cons op rest ih =>
    have hop : op.1.valid := hv op (List.mem_cons_self op rest)
    have hrest : ∀ o ∈ rest, o.1.valid := fun o ho => hv o (List.mem_cons_of_mem op ho)
    have hiff : (op.1.toStr = p.toStr) = (op.1 = p) := by
      apply propext
      constructor
      · exact fun h => toStr_inj hop hp h
      · exact fun h => h ▸ rfl
    simp only [lastWriteKey, lastInsertAt, ih hrest, hiff]

theorem lastInsertAt_some_mem {T : Type} {ops : List (DevicePath × T)} {p : DevicePath}
    {v : T} (h : lastInsertAt ops p = some v) : ∃ op ∈ ops, op.1 = p := by
  induction ops generalizing v with
  | nil => simp [lastInsertAt] at h
  | cons op rest ih =>
    simp only [lastInsertAt] at h
    cases hlast : lastInsertAt rest p with
    | some w =>
      obtain ⟨o, ho, hp⟩ := ih hlast
      exact ⟨o, List.mem_cons_of_mem op ho, hp⟩
    | none =>
      rw [hlast] at h
      by_cases heq : op.1 = p
      · exact ⟨op, List.mem_cons_self op rest, heq⟩
      · simp [heq] at h

/-- Wellformedness of every per-bus trie in the index. -/
def UsbTree.WFInv {T : Type} (t : UsbTree T) : Prop :=
  ∀ b pt, mapGet t.tree b = some pt → PortTree.WFt pt

/-- The C2 invariant: every key stored in any bus trie resolves in the
flat devices map. -/
def UsbTree.KeyInv {T : Type} (t : UsbTree T) : Prop :=
  ∀ b pt, mapGet t.tree b = some pt →
    ∀ k ∈ PortTree.descendants pt, (mapGet t.devices k).isSome

theorem wfinv_insertPath {T : Type} {t : UsbTree T} (h : t.WFInv) (p : DevicePath) (v : T) :
    (UsbTree.insertPath t p v).WFInv := by
  intro b pt hb
  simp only [UsbTree.insertPath, mapGet_mapInsert] at hb
  by_cases hbus : u8ToStr p.bus = b
  · rw [if_pos hbus] at hb
    injection hb with hb2
    rw [hb2.symm]
    apply PortTree.wf_insert
    cases hg : mapGet t.tree (u8ToStr p.bus) with
    | none => simpa [hg] using PortTree.wf_new
    | some pt0 => simpa [hg] using h (u8ToStr p.bus) pt0 hg
  · rw [if_neg hbus] at hb
    exact h b pt hb

theorem mapGet_isSome_mapInsert {K V : Type} [DecidableEq K] {m : List (K × V)} {k : K}
    (k0 : K) (v : V) (h : (mapGet m k).isSome) : (mapGet (mapInsert m k0 v) k).isSome := by
  rw [mapGet_mapInsert]
  by_cases heq : k0 = k
  · simp [heq]
  · simpa [heq] using h

theorem keyinv_insertPath {T : Type} {t : UsbTree T} (hwf : t.WFInv) (hkey : t.KeyInv)
    (p : DevicePath) (v : T) : (UsbTree.insertPath t p v).KeyInv := by
  intro b pt hb k hk
  have hdev : ∀ k2, (mapGet t.devices k2).isSome →
      (mapGet (UsbTree.insertPath t p v).devices k2).isSome := by
    intro k2 h2
    simpa [UsbTree.insertPath] using mapGet_isSome_mapInsert p.toStr v h2
  simp only [UsbTree.insertPath, mapGet_mapInsert] at hb
  by_cases hbus : u8ToStr p.bus = b
  · rw [if_pos hbus] at hb
    injection hb with hb2
    set pt0 := (mapGet t.tree (u8ToStr p.bus)).getD PortTree.new with hpt0
    have hwf0 : PortTree.WFt pt0 := by
      rw [hpt0]
      cases hg : mapGet t.tree (u8ToStr p.bus) with
      | none => simpa [hg] using PortTree.wf_new
      | some ptold => simpa [hg] using hwf (u8ToStr p.bus) ptold hg
    have hwf1 : PortTree.WFt pt := by
      rw [hb2.symm]
      exact PortTree.wf_insert hwf0 p.ports p.toStr
    obtain ⟨qs, hqs⟩ := (mem_descendants_iff hwf1).mp hk
    rw [hb2.symm] at hqs
    rw [PortTree.valueAt_insert] at hqs
    by_cases hq : qs = p.ports
    · rw [if_pos hq] at hqs
      injection hqs with hqs2
      rw [hqs2.symm]
      simp [UsbTree.insertPath, mapGet_mapInsert]
    · rw [if_neg hq] at hqs
      cases hg : mapGet t.tree (u8ToStr p.bus) with
      | none =>
        rw [hpt0, hg] at hqs
        simp [PortTree.valueAt_new] at hqs
      | some ptold =>
        have hmem : k ∈ PortTree.descendants ptold := by
          apply (mem_descendants_iff (hwf (u8ToStr p.bus) ptold hg)).mpr
          refine ⟨qs, ?_⟩
          rw [hpt0, hg] at hqs
          simpa using hqs
        exact hdev k (hkey (u8ToStr p.bus) ptold hg k hmem)
  · rw [if_neg hbus] at hb
    exact hdev k (hkey b pt hb k hk)

theorem applyInserts_inv {T : Type} (ops : List (DevicePath × T)) (t : UsbTree T)
    (hwf : t.WFInv) (hkey : t.KeyInv) :
    (applyInserts t ops).WFInv ∧ (applyInserts t ops).KeyInv := by
  induction ops generalizing t with
  | nil => exact ⟨hwf, hkey⟩
  | cons op rest ih =>
    exact ih (UsbTree.insertPath t op.1 op.2)
      (wfinv_insertPath hwf op.1 op.2) (keyinv_insertPath hwf hkey op.1 op.2)

theorem empty_wfinv {T : Type} : (UsbTree.empty (T := T)).WFInv := by
  intro b pt hb
  simp [UsbTree.empty, mapGet] at hb

theorem empty_keyinv {T : Type} : (UsbTree.empty (T := T)).KeyInv := by
  intro b pt hb
  simp [UsbTree.empty, mapGet] at hb

/-- C2: after any insertion history on an empty index, every key stored in
any bus trie resolves in the flat devices map, and get_by_path at an
inserted path returns the last value inserted there. -/
theorem index_consistency {T : Type} (ops : List (DevicePath × T))
    (hv : ∀ op ∈ ops, op.1.valid) :
    (∀ b pt, mapGet (applyInserts (UsbTree.empty (T := T)) ops).tree b = some pt →
      ∀ k ∈ PortTree.descendants pt,
        (mapGet (applyInserts (UsbTree.empty (T := T)) ops).devices k).isSome) ∧
    (∀ p v, lastInsertAt ops p = some v →
      UsbTree.getByPath (applyInserts (UsbTree.empty (T := T)) ops) p = some v) := by
  constructor
  · exact (applyInserts_inv ops UsbTree.empty empty_wfinv empty_keyinv).2
  · intro p v hlast
    obtain ⟨op, hop, hopp⟩ := lastInsertAt_some_mem hlast
    have hp : p.valid := hopp ▸ hv op hop
    rw [UsbTree.getByPath, devices_applyInserts,
      lastWriteKey_eq_lastInsertAt hv hp, hlast]

/-- C2 witness: at a two-insert history over the same path, lookup returns
the second value. -/
theorem index_consistency_witness :
    UsbTree.getByPath
        (applyInserts (UsbTree.empty (T := Nat))
          [(DevicePath.mk 1 [2], 10), (DevicePath.mk 1 [2], 20)])
        (DevicePath.mk 1 [2]) = some 20 :=
  (index_consistency [(DevicePath.mk 1 [2], 10), (DevicePath.mk 1 [2], 20)]
    (by decide)).2 (DevicePath.mk 1 [2]) 20 (by decide)

/-! Subtree completeness (claim C3). -/

/-- Model of `DevicePath::is_ancestor_of` (src/path.rs lines 82-86):
same bus, strictly shorter port chain, and a prefix match. -/
def DevicePath.isAncestorOf (a b : DevicePath) : Prop :=
  a.bus = b.bus ∧ a.ports.length < b.ports.length ∧
    b.ports.take a.ports.length = a.ports

/-- The trie insertions a history performs on the bus keyed by `b`. -/
def busOps {T : Type} (ops : List (DevicePath × T)) (b : Str) : List (List Nat × Str) :=
  ops.filterMap
    (fun op => if u8ToStr op.1.bus = b then some (op.1.ports, op.1.toStr) else none)

def foldTrieInserts (pt : PortTree Str) : List (List Nat × Str) → PortTree Str
  | [] => pt
  | e :: rest => foldTrieInserts (PortTree.insert pt e.1 e.2) rest

/-- The last key written at trie location `qs` by a list of trie inserts. -/
def lastEntry : List (List Nat × Str) → List Nat → Option Str
  | [], _ => none
  | e :: rest, qs =>
    match lastEntry rest qs with
    | some k => some k
    | none => if e.1 = qs then some e.2 else none

theorem u8ToStr_inj {m n : Nat} (hm : m < 256) (hn : n < 256)
    (h : u8ToStr m = u8ToStr n) : m = n := by
  have h1 := parseU8_u8ToStr m hm
  rw [h, parseU8_u8ToStr n hn] at h1
  injection h1 with h2
  exact h2.symm

theorem tree_applyInserts {T : Type} (ops : List (DevicePath × T)) (t : UsbTree T)
    (b : Str) :
    mapGet (applyInserts t ops).tree b =
      if busOps ops b = [] then mapGet t.tree b
      else some (foldTrieInserts ((mapGet t.tree b).getD PortTree.new) (busOps ops b)) := by
  induction ops generalizing t with
  | nil => simp [applyInserts, busOps]
  | cons op rest ih =>
    show mapGet (applyInserts (UsbTree.insertPath t op.1 op.2) rest).tree b = _
    rw [ih]
    by_cases hb : u8ToStr op.1.bus = b
    · have hbus : busOps (op :: rest) b =
          (op.1.ports, op.1.toStr) :: busOps rest b := by
        simp [busOps, List.filterMap_cons, hb]
      have htr : mapGet (UsbTree.insertPath t op.1 op.2).tree b =
          some (PortTree.insert ((mapGet t.tree b).getD PortTree.new) op.1.ports
            op.1.toStr) := by
        rw [hb.symm]
        simp [UsbTree.insertPath, mapGet_mapInsert]
      rw [hbus, htr]
      by_cases hrest : busOps rest b = []
      · simp [hrest, foldTrieInserts]
      · simp [hrest, foldTrieInserts]
    · have hbus : busOps (op :: rest) b = busOps rest b := by
        simp [busOps, List.filterMap_cons, hb]
      have htr : mapGet (UsbTree.insertPath t op.1 op.2).tree b = mapGet t.tree b := by
        simp [UsbTree.insertPath, mapGet_mapInsert, hb]
      rw [hbus, htr]

theorem valueAt_foldTrieInserts (l : List (List Nat × Str)) (pt : PortTree Str)
    (qs : List Nat) :
    PortTree.valueAt (foldTrieInserts pt l) qs =
      match lastEntry l qs with
      | some k => some k
      | none => PortTree.valueAt pt qs := by
  induction l generalizing pt with
  | nil => simp [foldTrieInserts, lastEntry]
  | cons e rest ih =>
    show PortTree.valueAt (foldTrieInserts (PortTree.insert pt e.1 e.2) rest) qs = _
    rw [ih]
    cases hlast : lastEntry rest qs with
    | some k => simp [lastEntry, hlast]
    | none =>
      rw [PortTree.valueAt_insert]
      by_cases he : e.1 = qs
      · rw [if_pos he.symm]
        simp [lastEntry, hlast, he]
      · rw [if_neg (fun hh => he hh.symm)]
        simp [lastEntry, hlast, he]

theorem get_isSome_foldTrieInserts (l : List (List Nat × Str)) (pt : PortTree Str)
    (qs : List Nat) :
    ((foldTrieInserts pt l).get qs).isSome ↔
      (pt.get qs).isSome ∨ ∃ e ∈ l, e.1.take qs.length = qs := by
  induction l generalizing pt with
  | nil => simp [foldTrieInserts]
  | cons e rest ih =>
    show ((foldTrieInserts (PortTree.insert pt e.1 e.2) rest).get qs).isSome ↔ _
    rw [ih, PortTree.get_insert_isSome]
    simp only [List.mem_cons]
    constructor
    · rintro ((h | h) | ⟨e2, he2, ht⟩)
      · exact Or.inl h
      · exact Or.inr ⟨e, Or.inl rfl, h⟩
      · exact Or.inr ⟨e2, Or.inr he2, ht⟩
    · rintro (h | ⟨e2, (rfl | he2), ht⟩)
      · exact Or.inl (Or.inl h)
      · exact Or.inl (Or.inr ht)
      · exact Or.inr ⟨e2, he2, ht⟩

theorem wf_foldTrieInserts {pt : PortTree Str} (h : PortTree.WFt pt)
    (l : List (List Nat × Str)) : PortTree.WFt (foldTrieInserts pt l) := by
  induction l generalizing pt with
  | nil => exact h
  | cons e rest ih => exact ih (PortTree.wf_insert h e.1 e.2)

theorem PortTree.wf_get {T : Type} {pt : PortTree T} (h : PortTree.WFt pt)
    {qs : List Nat} {node : PortTree T} (hg : pt.get qs = some node) :
    PortTree.WFt node := by
  induction qs generalizing pt with
  | nil =>
    simp only [PortTree.get] at hg
    injection hg with hg2
    exact hg2 ▸ h
  | cons q qs1 ih =>
    simp only [PortTree.get] at hg
    cases hc : mapGet pt.children q with
    | none => rw [hc] at hg; simp at hg
    | some c =>
      rw [hc] at hg
      cases h with
      | mk v cs hnd hch =>
        exact ih (hch (q, c) (mapGet_mem hc)) hg

theorem valueAt_of_get {T : Type} {pt node : PortTree T} {pre : List Nat}
    (hg : pt.get pre = some node) (rs : List Nat) :
    PortTree.valueAt node rs = PortTree.valueAt pt (pre ++ rs) := by
  simp [PortTree.valueAt, PortTree.get_append, hg]

theorem lastEntry_busOps {T : Type} {ops : List (DevicePath × T)}
    (hv : ∀ op ∈ ops, op.1.valid) {bus0 : Nat} (hb : bus0 < 256) (qs : List Nat) :
    lastEntry (busOps ops (u8ToStr bus0)) qs =
      if ∃ op ∈ ops, op.1 = DevicePath.mk bus0 qs
      then some (DevicePath.toStr (DevicePath.mk bus0 qs)) else none := by
  induction ops with
  | nil => simp [busOps, lastEntry]
  | cons op rest ih =>
    have hop : op.1.valid := hv op (List.mem_cons_self op rest)
    have hrest : ∀ o ∈ rest, o.1.valid := fun o ho => hv o (List.mem_cons_of_mem op ho)
    by_cases hbm : u8ToStr op.1.bus = u8ToStr bus0
    · have hbeq : op.1.bus = bus0 := u8ToStr_inj hop.1 hb hbm
      have hbus : busOps (op :: rest) (u8ToStr bus0) =
          (op.1.ports, op.1.toStr) :: busOps rest (u8ToStr bus0) := by
        simp [busOps, List.filterMap_cons, hbm]
      rw [hbus]
      show (match lastEntry (busOps rest (u8ToStr bus0)) qs with
        | some k => some k
        | none => if op.1.ports = qs then some op.1.toStr else none) = _
      rw [ih hrest]
      by_cases hex : ∃ o ∈ rest, o.1 = DevicePath.mk bus0 qs
      · rw [if_pos hex]
        have hex2 : ∃ o ∈ op :: rest, o.1 = DevicePath.mk bus0 qs := by
          obtain ⟨o, ho, heq⟩ := hex
          exact ⟨o, List.mem_cons_of_mem op ho, heq⟩
        rw [if_pos hex2]
      · rw [if_neg hex]
        show (if op.1.ports = qs then some op.1.toStr else none) = _
        by_cases hports : op.1.ports = qs
        · have hopeq : op.1 = DevicePath.mk bus0 qs := by
            cases hcase : op.1 with
            | mk b2 p2 =>
              rw [hcase] at hbeq hports
              simp at hbeq hports
              simp [hbeq, hports]
          have hex2 : ∃ o ∈ op :: rest, o.1 = DevicePath.mk bus0 qs :=
            ⟨op, List.mem_cons_self op rest, hopeq⟩
          rw [if_pos hports, if_pos hex2, hopeq]
        · have hex2 : ¬∃ o ∈ op :: rest, o.1 = DevicePath.mk bus0 qs := by
            rintro ⟨o, ho, heq⟩
            rcases List.mem_cons.mp ho with rfl | ho2
            · exact hports (by rw [heq])
            · exact hex ⟨o, ho2, heq⟩
          rw [if_neg hports, if_neg hex2]
    · have hbus : busOps (op :: rest) (u8ToStr bus0) = busOps rest (u8ToStr bus0) := by
        simp [busOps, List.filterMap_cons, hbm]
      rw [hbus, ih hrest]
      have hnoteq : op.1 ≠ DevicePath.mk bus0 qs := by
        intro hcon
        exact hbm (by rw [hcon])
      by_cases hex : ∃ o ∈ rest, o.1 = DevicePath.mk bus0 qs
      · have hex2 : ∃ o ∈ op :: rest, o.1 = DevicePath.mk bus0 qs := by
          obtain ⟨o, ho, heq⟩ := hex
          exact ⟨o, List.mem_cons_of_mem op ho, heq⟩
        rw [if_pos hex, if_pos hex2]
      · have hex2 : ¬∃ o ∈ op :: rest, o.1 = DevicePath.mk bus0 qs := by
          rintro ⟨o, ho, heq⟩
          rcases List.mem_cons.mp ho with rfl | ho2
          · exact hnoteq heq
          · exact hex ⟨o, ho2, heq⟩
        rw [if_neg hex, if_neg hex2]

theorem ancestor_or_eq_iff {p q : DevicePath} :
    (q = p ∨ DevicePath.isAncestorOf p q) ↔
      ∃ rs, q = DevicePath.mk p.bus (p.ports ++ rs) := by
  constructor
  · rintro (rfl | ⟨hbus, hlen, htake⟩)
    · exact ⟨[], by cases q; simp⟩
    · refine ⟨q.ports.drop p.ports.length, ?_⟩
      have happ : p.ports ++ q.ports.drop p.ports.length = q.ports := by
        conv_rhs => rw [← List.take_append_drop p.ports.length q.ports]
        rw [htake]
      cases q with
      | mk qb qp =>
        simp only [DevicePath.mk.injEq]
        refine ⟨hbus.symm, ?_⟩
        exact happ.symm
  · rintro ⟨rs, rfl⟩
    by_cases hrs : rs = []
    · subst hrs
      exact Or.inl (by cases p; simp)
    · refine Or.inr ⟨rfl, ?_, ?_⟩
      · simp [List.length_append]
        exact List.length_pos.mpr hrs
      · simp

/-- C3: get_subtree_by_path returns the empty sequence when the path's
bus is unknown or the location is absent from that bus's trie; otherwise,
order-independently, it returns exactly the current values stored at p
itself (if any) and at every inserted strict descendant of p. -/
theorem subtree_completeness {T : Type} (ops : List (DevicePath × T))
    (hv : ∀ op ∈ ops, op.1.valid) (p : DevicePath) (hp : p.valid) :
    (mapGet (applyInserts (UsbTree.empty (T := T)) ops).tree (u8ToStr p.bus) = none →
      UsbTree.getSubtreeByPath (applyInserts UsbTree.empty ops) p = []) ∧
    (∀ pt,
      mapGet (applyInserts (UsbTree.empty (T := T)) ops).tree (u8ToStr p.bus) = some pt →
      PortTree.get pt p.ports = none →
      UsbTree.getSubtreeByPath (applyInserts UsbTree.empty ops) p = []) ∧
    (∀ v, v ∈ UsbTree.getSubtreeByPath (applyInserts (UsbTree.empty (T := T)) ops) p ↔
      ∃ q, (q = p ∨ DevicePath.isAncestorOf p q) ∧ lastInsertAt ops q = some v) := by
  have htree := tree_applyInserts ops (UsbTree.empty (T := T)) (u8ToStr p.bus)
  have hemp : mapGet (UsbTree.empty (T := T)).tree (u8ToStr p.bus) = none := rfl
  refine ⟨?_, ?_, ?_⟩
  · intro h
    simp [UsbTree.getSubtreeByPath, h]
  · intro pt hpt hget
    simp [UsbTree.getSubtreeByPath, hpt, hget]
  · intro v
    have hrhs : (∃ q, (q = p ∨ DevicePath.isAncestorOf p q) ∧
        lastInsertAt ops q = some v) ↔
        ∃ rs, lastInsertAt ops (DevicePath.mk p.bus (p.ports ++ rs)) = some v := by
      constructor
      · rintro ⟨q, hq, hlast⟩
        obtain ⟨rs, rfl⟩ := ancestor_or_eq_iff.mp hq
        exact ⟨rs, hlast⟩
      · rintro ⟨rs, hlast⟩
        exact ⟨DevicePath.mk p.bus (p.ports ++ rs),
          ancestor_or_eq_iff.mpr ⟨rs, rfl⟩, hlast⟩
    rw [hrhs]
    by_cases hL : busOps ops (u8ToStr p.bus) = []
    · have hnone : mapGet (applyInserts (UsbTree.empty (T := T)) ops).tree
          (u8ToStr p.bus) = none := by
        rw [htree, if_pos hL, hemp]
      have hsub : UsbTree.getSubtreeByPath (applyInserts (UsbTree.empty (T := T)) ops) p
          = [] := by
        simp [UsbTree.getSubtreeByPath, hnone]
      rw [hsub]
      constructor
      · intro hmem
        simp at hmem
      · rintro ⟨rs, hlast⟩
        exfalso
        obtain ⟨op, hop, hopeq⟩ := lastInsertAt_some_mem hlast
        have hmem : (op.1.ports, op.1.toStr) ∈ busOps ops (u8ToStr p.bus) := by
          apply List.mem_filterMap.mpr
          refine ⟨op, hop, ?_⟩
          rw [hopeq]
          simp
        rw [hL] at hmem
        simp at hmem
    · have hsome : mapGet (applyInserts (UsbTree.empty (T := T)) ops).tree
          (u8ToStr p.bus) =
          some (foldTrieInserts PortTree.new (busOps ops (u8ToStr p.bus))) := by
        rw [htree, if_neg hL]
        rfl
      have hwfpt : PortTree.WFt (foldTrieInserts PortTree.new
          (busOps ops (u8ToStr p.bus))) :=
        wf_foldTrieInserts PortTree.wf_new _
      cases hgp : PortTree.get (foldTrieInserts PortTree.new
          (busOps ops (u8ToStr p.bus))) p.ports with
      | none =>
        have hsub : UsbTree.getSubtreeByPath (applyInserts (UsbTree.empty (T := T)) ops) p
            = [] := by
          simp [UsbTree.getSubtreeByPath, hsome, hgp]
        rw [hsub]
        constructor
        · intro hmem
          simp at hmem
        · rintro ⟨rs, hlast⟩
          exfalso
          obtain ⟨op, hop, hopeq⟩ := lastInsertAt_some_mem hlast
          have hmem : (op.1.ports, op.1.toStr) ∈ busOps ops (u8ToStr p.bus) := by
            apply List.mem_filterMap.mpr
            refine ⟨op, hop, ?_⟩
            rw [hopeq]
            simp
          have hiso : ((foldTrieInserts PortTree.new
              (busOps ops (u8ToStr p.bus))).get p.ports).isSome := by
            rw [get_isSome_foldTrieInserts]
            refine Or.inr ⟨(op.1.ports, op.1.toStr), hmem, ?_⟩
            rw [hopeq]
            simp
          rw [hgp] at hiso
          simp at hiso
      | some node =>
        have hwfnode : PortTree.WFt node := PortTree.wf_get hwfpt hgp
        have hsub : UsbTree.getSubtreeByPath (applyInserts (UsbTree.empty (T := T)) ops) p
            = (PortTree.descendants node).filterMap
                (fun k => mapGet (applyInserts (UsbTree.empty (T := T)) ops).devices k) := by
          simp [UsbTree.getSubtreeByPath, hsome, hgp]
        rw [hsub, List.mem_filterMap]
        constructor
        · rintro ⟨k, hk, hdev⟩
          obtain ⟨rs, hval⟩ := (mem_descendants_iff hwfnode).mp hk
          rw [valueAt_of_get hgp, valueAt_foldTrieInserts] at hval
          cases hle : lastEntry (busOps ops (u8ToStr p.bus)) (p.ports ++ rs) with
          | none =>
            rw [hle] at hval
            simp [PortTree.valueAt_new] at hval
          | some k2 =>
            rw [hle] at hval
            injection hval with hval2
            rw [lastEntry_busOps hv hp.1] at hle
            by_cases hex : ∃ op ∈ ops, op.1 = DevicePath.mk p.bus (p.ports ++ rs)
            · rw [if_pos hex] at hle
              injection hle with hle2
              have hqvalid : (DevicePath.mk p.bus (p.ports ++ rs)).valid := by
                obtain ⟨op, hop, hopeq⟩ := hex
                exact hopeq ▸ hv op hop
              refine ⟨rs, ?_⟩
              have hdev2 : mapGet (applyInserts (UsbTree.empty (T := T)) ops).devices
                  (DevicePath.toStr (DevicePath.mk p.bus (p.ports ++ rs))) = some v := by
                rw [hle2, hval2]
                exact hdev
              rw [devices_applyInserts,
                lastWriteKey_eq_lastInsertAt hv hqvalid] at hdev2
              cases hlw : lastInsertAt ops (DevicePath.mk p.bus (p.ports ++ rs)) with
              | none => rw [hlw] at hdev2; simp [UsbTree.empty, mapGet] at hdev2
              | some w => rw [hlw] at hdev2; simpa using hdev2
            · rw [if_neg hex] at hle
              exact Option.noConfusion hle
        · rintro ⟨rs, hlast⟩
          have hex : ∃ op ∈ ops, op.1 = DevicePath.mk p.bus (p.ports ++ rs) := by
            obtain ⟨op, hop, hopeq⟩ := lastInsertAt_some_mem hlast
            exact ⟨op, hop, hopeq⟩
          have hqvalid : (DevicePath.mk p.bus (p.ports ++ rs)).valid := by
            obtain ⟨op, hop, hopeq⟩ := hex
            exact hopeq ▸ hv op hop
          have hle : lastEntry (busOps ops (u8ToStr p.bus)) (p.ports ++ rs) =
              some (DevicePath.toStr (DevicePath.mk p.bus (p.ports ++ rs))) := by
            rw [lastEntry_busOps hv hp.1, if_pos hex]
          have hval : PortTree.valueAt node rs =
              some (DevicePath.toStr (DevicePath.mk p.bus (p.ports ++ rs))) := by
            rw [valueAt_of_get hgp, valueAt_foldTrieInserts, hle]
          have hk : DevicePath.toStr (DevicePath.mk p.bus (p.ports ++ rs)) ∈
              PortTree.descendants node :=
            (mem_descendants_iff hwfnode).mpr ⟨rs, hval⟩
          refine ⟨DevicePath.toStr (DevicePath.mk p.bus (p.ports ++ rs)), hk, ?_⟩
          rw [devices_applyInserts, lastWriteKey_eq_lastInsertAt hv hqvalid, hlast]

/-- C3 witness: the value stored at the queried path itself is a member of
the returned subtree. -/
theorem subtree_completeness_witness :
    (10 : Nat) ∈ UsbTree.getSubtreeByPath
        (applyInserts (UsbTree.empty (T := Nat))
          [(DevicePath.mk 1 [2], 10), (DevicePath.mk 1 [2, 3], 11)])
        (DevicePath.mk 1 [2]) :=
  ((subtree_completeness [(DevicePath.mk 1 [2], 10), (DevicePath.mk 1 [2, 3], 11)]
      (by decide) (DevicePath.mk 1 [2]) (by decide)).2.2 10).mpr
    ⟨DevicePath.mk 1 [2], Or.inl rfl, by decide⟩

/-! Sorting. Rust sorts child port numbers with `Vec::sort` and bus key
strings with `Vec::sort` over `&str` (lexicographic byte order); both are
modelled by insertion sort, a correct stable sort. -/

def strLe : Str → Str → Bool
  | [], _ => true
  | _ :: _, [] => false
  | a :: as, b :: bs =>
    if a.toNat < b.toNat then true
    else if b.toNat < a.toNat then false
    else strLe as bs

def insertSortedStr (x : Str) : List Str → List Str
  | [] => [x]
  | y :: ys => if strLe x y then x :: y :: ys else y :: insertSortedStr x ys

def sortStr (l : List Str) : List Str := l.foldr insertSortedStr []

/-- Model of `UsbTree::buses` (src/tree.rs lines 212-216). -/
def UsbTree.buses {T : Type} (t : UsbTree T) : List Str :=
  sortStr (t.tree.map Prod.fst)

/-- Model of `UsbTree::bus_tree` (src/tree.rs lines 219-221). -/
def UsbTree.busTree {T : Type} (t : UsbTree T) (b : Str) : Option (PortTree Str) :=
  mapGet t.tree b

theorem strLe_total : ∀ a b : Str, strLe a b = true ∨ strLe b a = true
  | [], _ => Or.inl rfl
  | _ :: _, [] => Or.inr rfl
  | a :: as, b :: bs => by
    by_cases h1 : a.toNat < b.toNat
    · left
      simp [strLe, h1]
    · by_cases h2 : b.toNat < a.toNat
      · right
        simp [strLe, h2]
      · rcases strLe_total as bs with h | h
        · left
          simp [strLe, h1, h2, h]
        · right
          have h3 : ¬b.toNat < a.toNat := h2
          have h4 : ¬a.toNat < b.toNat := h1
          simp [strLe, h3, h4, h]

theorem chain_insertSortedStr (x : Str) (l : List Str)
    (h : List.Chain' (fun a b => strLe a b = true) l) :
    List.Chain' (fun a b => strLe a b = true) (insertSortedStr x l) := by
  induction l with
  | nil => simp [insertSortedStr]
  | cons y ys ih =>
    by_cases hxy : strLe x y = true
    · simp only [insertSortedStr, if_pos hxy]
      exact h.cons hxy
    · simp only [insertSortedStr, if_neg hxy]
      have hyx : strLe y x = true := by
        rcases strLe_total x y with h2 | h2
        · exact absurd h2 hxy
        · exact h2
      have hch : List.Chain' (fun a b => strLe a b = true) (insertSortedStr x ys) :=
        ih h.tail
      rw [List.chain'_cons']
      refine ⟨?_, hch⟩
      intro z hz
      cases ys with
      | nil =>
        simp [insertSortedStr] at hz
        rw [← hz]
        exact hyx
      | cons w ws =>
        by_cases hxw : strLe x w = true
        · simp only [insertSortedStr, if_pos hxw, List.head?_cons, Option.mem_def] at hz
          injection hz with hz2
          rw [hz2.symm]
          exact hyx
        · simp only [insertSortedStr, if_neg hxw, List.head?_cons, Option.mem_def] at hz
          injection hz with hz2
          rw [hz2.symm]
          exact (List.chain'_cons.mp h).1

theorem chain_sortStr (l : List Str) :
    List.Chain' (fun a b => strLe a b = true) (sortStr l) := by
  induction l with
  | nil => simp [sortStr]
  | cons x xs ih => exact chain_insertSortedStr x (sortStr xs) ih

theorem mem_insertSorted {x z : Nat} {l : List Nat} :
    z ∈ insertSorted x l ↔ z = x ∨ z ∈ l := by
  induction l with
  | nil => simp [insertSorted]
  | cons y ys ih =>
    by_cases hxy : x ≤ y
    · simp [insertSorted, hxy]
    · simp only [insertSorted, if_neg hxy, List.mem_cons, ih]
      constructor
      · rintro (h | h | h)
        · exact Or.inr (Or.inl h)
        · exact Or.inl h
        · exact Or.inr (Or.inr h)
      · rintro (h | h | h)
        · exact Or.inr (Or.inl h)
        · exact Or.inl h
        · exact Or.inr (Or.inr h)

theorem pairwise_insertSorted (x : Nat) (l : List Nat)
    (h : List.Pairwise (· ≤ ·) l) : List.Pairwise (· ≤ ·) (insertSorted x l) := by
  induction l with
  | nil => simp [insertSorted]
  | cons y ys ih =>
    by_cases hxy : x ≤ y
    · simp only [insertSorted, if_pos hxy]
      refine List.Pairwise.cons ?_ h
      intro z hz
      rcases List.mem_cons.mp hz with rfl | hmem
      · exact hxy
      · exact le_trans hxy ((List.pairwise_cons.mp h).1 z hmem)
    · simp only [insertSorted, if_neg hxy]
      have hyx : y ≤ x := le_of_not_le hxy
      refine List.Pairwise.cons ?_ (ih (List.pairwise_cons.mp h).2)
      intro z hz
      rcases mem_insertSorted.mp hz with rfl | hmem
      · exact hyx
      · exact (List.pairwise_cons.mp h).1 z hmem

theorem perm_insertSorted (x : Nat) (l : List Nat) :
    (insertSorted x l).Perm (x :: l) := by
  induction l with
  | nil => simp [insertSorted]
  | cons y ys ih =>
    by_cases hxy : x ≤ y
    · simp [insertSorted, hxy]
    · simp only [insertSorted, if_neg hxy]
      exact (ih.cons y).trans (List.Perm.swap x y ys)

theorem perm_sortNat (l : List Nat) : (sortNat l).Perm l := by
  induction l with
  | nil => simp [sortNat]
  | cons x xs ih =>
    show (insertSorted x (sortNat xs)).Perm (x :: xs)
    exact (perm_insertSorted x (sortNat xs)).trans (ih.cons x)

theorem pairwise_sortNat (l : List Nat) : List.Pairwise (· ≤ ·) (sortNat l) := by
  induction l with
  | nil => simp [sortNat]
  | cons x xs ih => exact pairwise_insertSorted x (sortNat xs) ih

/-- With pairwise-distinct child keys, child_ports is strictly ascending. -/
theorem pairwise_lt_childPorts {T : Type} (pt : PortTree T)
    (h : (pt.children.map Prod.fst).Nodup) :
    List.Pairwise (· < ·) (PortTree.childPorts pt) := by
  have hnd : (sortNat (pt.children.map Prod.fst)).Nodup :=
    (perm_sortNat (pt.children.map Prod.fst)).nodup_iff.mpr h
  have hle := pairwise_sortNat (pt.children.map Prod.fst)
  exact (hle.and hnd).imp (fun hh => lt_of_le_of_ne hh.1 hh.2)

/-! The tree renderer from src/formatter.rs. The payload printer `tos`
stands for the `Display` implementation of the stored device type. -/

/-- Model of `TreeStyle` (src/formatter.rs lines 10-24). -/
structure TreeStyle : Type where
  colored : Bool
  showHeader : Bool
  indent : Str
  branch : Str
  corner : Str
  vertical : Str

/-- Model of `TreeStyle::default` (src/formatter.rs lines 26-37). -/
def TreeStyle.defaultStyle : TreeStyle :=
  TreeStyle.mk true true "    ".data "├── ".data "└── ".data "│   ".data

/-- Model of `TreeStyle::plain` (src/formatter.rs lines 46-51). -/
def TreeStyle.plainStyle : TreeStyle :=
  TreeStyle.mk false true "    ".data "├── ".data "└── ".data "│   ".data

/-- Model of `TreeStyle::ascii` (src/formatter.rs lines 54-61). -/
def TreeStyle.asciiStyle : TreeStyle :=
  TreeStyle.mk true true "    ".data "|-- ".data "`-- ".data "|   ".data

/-- ANSI color code selected by `depth % 10` in `TreeFormatter::colorize`
(src/formatter.rs lines 125-144), as emitted by the colored crate. -/
def ansiCode : Nat → Str
  | 0 => "31".data
  | 1 => "33".data
  | 2 => "32".data
  | 3 => "36".data
  | 4 => "34".data
  | 5 => "35".data
  | 6 => "91".data
  | 7 => "93".data
  | 8 => "92".data
  | 9 => "96".data
  | _ => "37".data

def colorize (style : TreeStyle) (text : Str) (depth : Nat) : Str :=
  if style.colored then
    ('\x1b' :: '[' :: ansiCode (depth % 10)) ++ ('m' :: text) ++
      ('\x1b' :: '[' :: '0' :: 'm' :: [])
  else text

/-- The children a node's rendering loop visits, in ascending port order:
`child_ports()` then `children.get(&port)` per port. Every lookup succeeds
because the ports are the map's own keys. -/
def sortedChildren {T : Type} (pt : PortTree T) : List (Nat × PortTree T) :=
  (PortTree.childPorts pt).filterMap
    (fun port => (mapGet pt.children port).map (fun c => (port, c)))

/-- Pair each element with the `i == count - 1` flag of the render loop. -/
def markLast {α : Type} : List α → List (α × Bool)
  | [] => []
  | [x] => [(x, true)]
  | x :: y :: ys => (x, false) :: markLast (y :: ys)

theorem mem_markLast {α : Type} {l : List α} {x : α} {b : Bool}
    (h : (x, b) ∈ markLast l) : x ∈ l := by
  induction l with
  | nil => simp [markLast] at h
  | cons y ys ih =>
    cases ys with
    | nil =>
      simp [markLast] at h
      simp [h.1]
    | cons z zs =>
      rcases List.mem_cons.mp h with heq | hmem
      · injection heq with h1 h2
        exact h1 ▸ List.mem_cons_self y (z :: zs)
      · exact List.mem_cons_of_mem y (ih hmem)

theorem sizeOf_mem_sortedChildren {T : Type} [SizeOf T] {pt : PortTree T}
    {pc : Nat × PortTree T} (h : pc ∈ sortedChildren pt) : sizeOf pc.2 < sizeOf pt := by
  obtain ⟨port, hport, hf⟩ := List.mem_filterMap.mp h
  rcases Option.map_eq_some'.mp hf with ⟨c, hc, hpc⟩
  have hmem : (port, c) ∈ pt.children := mapGet_mem hc
  have h1 : sizeOf (port, c) < sizeOf pt.children := List.sizeOf_lt_of_mem hmem
  cases pt with
  | mk v cs =>
    rw [← hpc]
    simp only [PortTree.children] at h1
    simp only [Prod.mk.sizeOf_spec, PortTree.mk.sizeOf_spec] at h1 ⊢
    omega

/-- Model of `TreeFormatter::fmt_port_tree` (src/formatter.rs lines
147-190): emit the node's own line when it has a payload that resolves in
the devices map, then recurse into children in ascending port order. -/
def fmtPortTree {T : Type} (devs : List (Str × T)) (tos : T → Str) (style : TreeStyle) :
    PortTree Str → Str → Bool → Nat → Str
  | pt, pre, isLast, depth =>
    (match pt.value with
     | none => []
     | some key =>
       match mapGet devs key with
       | none => []
       | some d =>
         pre ++ (if depth = 0 then [] else if isLast then style.corner else style.branch)
           ++ colorize style (tos d) depth ++ ['\n']) ++
    List.flatten ((markLast (sortedChildren pt)).attach.map
      (fun pc =>
        fmtPortTree devs tos style pc.1.1.2
          (if depth = 0 then []
           else if isLast then pre ++ style.indent else pre ++ style.vertical)
          pc.1.2 (depth + 1)))
termination_by pt _ _ _ => sizeOf pt
decreasing_by
  obtain ⟨⟨pc1, b⟩, hmem⟩ := pc
  exact sizeOf_mem_sortedChildren (mem_markLast hmem)

/-- Attach-free unfolding of fmtPortTree. -/
theorem fmtPortTree_eq {T : Type} (devs : List (Str × T)) (tos : T → Str)
    (style : TreeStyle) (pt : PortTree Str) (pre : Str) (isLast : Bool) (depth : Nat) :
    fmtPortTree devs tos style pt pre isLast depth =
      (match pt.value with
       | none => []
       | some key =>
         match mapGet devs key with
         | none => []
         | some d =>
           pre ++ (if depth = 0 then []
             else if isLast then style.corner else style.branch)
             ++ colorize style (tos d) depth ++ ['\n']) ++
      List.flatten ((markLast (sortedChildren pt)).map
        (fun pc =>
          fmtPortTree devs tos style pc.1.2
            (if depth = 0 then []
             else if isLast then pre ++ style.indent else pre ++ style.vertical)
            pc.2 (depth + 1))) := by
  conv_lhs => rw [fmtPortTree.eq_def]
  simp only [List.map_attach]
  congr 1
  rw [List.pmap_eq_map]

/-- Model of the `format!("Bus {:03}", bus)` zero-padded header label. -/
def pad3 (n : Nat) : Str :=
  List.replicate (3 - (u8ToStr n).length) '0' ++ u8ToStr n

/-- The header line of one bus section in `impl fmt::Display for
TreeFormatter` (src/formatter.rs lines 196-201): the bus key is parsed
back to u8 with unwrap_or(0), printed zero-padded to width 3. -/
def busHeaderLine (style : TreeStyle) (busKey : Str) : Str :=
  colorize style ("Bus ".data ++ pad3 ((parseU8 busKey).getD 0)) 0 ++ ['\n']

/-- The child-tree lines of one bus section (src/formatter.rs lines
203-212): each root child rendered at depth 1 with an empty line prefix. -/
def busBody {T : Type} (t : UsbTree T) (tos : T → Str) (style : TreeStyle)
    (busKey : Str) : Str :=
  match mapGet t.tree busKey with
  | none => []
  | some pt =>
    List.flatten ((markLast (sortedChildren pt)).map
      (fun pc => fmtPortTree t.devices tos style pc.1.2 [] pc.2 1))

/-- Model of `impl fmt::Display for TreeFormatter` (src/formatter.rs lines
193-219): for each bus in sorted order, write the header line, the tree
body, and a blank separator line. -/
def renderTree {T : Type} (t : UsbTree T) (tos : T → Str) (style : TreeStyle) : Str :=
  (UsbTree.buses t).foldl
    (fun acc busKey =>
      acc ++ busHeaderLine style busKey ++ busBody t tos style busKey ++ ['\n'])
    []

theorem foldl_append_flatten {α β : Type} (l : List α) (f g h : α → List β)
    (acc0 : List β) :
    l.foldl (fun acc x => acc ++ f x ++ g x ++ h x) acc0 =
      acc0 ++ List.flatten (l.map (fun x => f x ++ g x ++ h x)) := by
  induction l generalizing acc0 with
  | nil => simp
  | cons x xs ih =>
    show List.foldl _ (acc0 ++ f x ++ g x ++ h x) xs = _
    rw [ih]
    simp [List.append_assoc]

/-- C7: rendering decomposes into one section per known bus — a header
line, the indented tree, then one blank line — the buses appearing in
sorted (lexicographic byte) order; and every sibling list anywhere in a
built index renders in strictly ascending port order. Rendering is a pure
function of the tree and style, so repeated calls are byte-identical. -/
theorem render_structure {T : Type} (ops : List (DevicePath × T)) (tos : T → Str)
    (style : TreeStyle) :
    (renderTree (applyInserts (UsbTree.empty (T := T)) ops) tos style =
      List.flatten ((UsbTree.buses (applyInserts (UsbTree.empty (T := T)) ops)).map
        (fun b => busHeaderLine style b ++
          busBody (applyInserts (UsbTree.empty (T := T)) ops) tos style b ++ ['\n']))) ∧
    List.Chain' (fun a b => strLe a b = true)
      (UsbTree.buses (applyInserts (UsbTree.empty (T := T)) ops)) ∧
    (∀ b pt, mapGet (applyInserts (UsbTree.empty (T := T)) ops).tree b = some pt →
      ∀ qs node, PortTree.get pt qs = some node →
        List.Pairwise (· < ·) (PortTree.childPorts node)) := by
  refine ⟨?_, chain_sortStr _, ?_⟩
  · unfold renderTree
    exact (foldl_append_flatten (UsbTree.buses (applyInserts UsbTree.empty ops))
      (fun b => busHeaderLine style b)
      (fun b => busBody (applyInserts UsbTree.empty ops) tos style b)
      (fun _ => ['\n']) []).trans (List.nil_append _)
  · intro b pt hb qs node hget
    have hwf : PortTree.WFt pt :=
      (applyInserts_inv ops UsbTree.empty empty_wfinv empty_keyinv).1 b pt hb
    have hwfn := PortTree.wf_get hwf hget
    cases hwfn with
    | mk v cs hnd hch =>
      exact pairwise_lt_childPorts (PortTree.mk v cs)
        (by simpa [PortTree.children] using hnd)

/-- C7 witness: in the index built from inserting 1:2, the bus-root
sibling list is strictly ascending. -/
theorem render_structure_witness :
    List.Pairwise (· < ·)
      (PortTree.childPorts
        (PortTree.mk none [(2, PortTree.mk (some ['1', ':', '2']) [])])) :=
  (render_structure [(DevicePath.mk 1 [2], (0 : Nat))] u8ToStr TreeStyle.plainStyle).2.2
    ['1'] (PortTree.mk none [(2, PortTree.mk (some ['1', ':', '2']) [])]) rfl
    [] (PortTree.mk none [(2, PortTree.mk (some ['1', ':', '2']) [])]) rfl

/-! The show_header switch (claim C8). The TreeStyle carries the flag and
TreeStyle::with_header sets it, but the Display implementation never reads
it: rendering is proved independent of the flag. -/

theorem mem_sortedChildren {T : Type} {pt : PortTree T} {pc : Nat × PortTree T}
    (h : pc ∈ sortedChildren pt) : pc ∈ pt.children := by
  obtain ⟨port, hport, hf⟩ := List.mem_filterMap.mp h
  rcases Option.map_eq_some'.mp hf with ⟨c, hc, hpc⟩
  rw [← hpc]
  exact mapGet_mem hc

theorem fmt_showHeader_irrel {T : Type} (devs : List (Str × T)) (tos : T → Str)
    (colored sh1 sh2 : Bool) (ind br cor ver : Str) :
    ∀ pt pre isLast depth,
      fmtPortTree devs tos (TreeStyle.mk colored sh1 ind br cor ver) pt pre isLast depth =
      fmtPortTree devs tos (TreeStyle.mk colored sh2 ind br cor ver) pt pre isLast depth := by
  intro pt
  induction pt using PortTree.myInduction with
  | step v cs ih =>
    intro pre isLast depth
    rw [fmtPortTree_eq, fmtPortTree_eq]
    congr 1
    apply congrArg
    apply List.map_congr_left
    intro pc hpc
    obtain ⟨pcx, pcb⟩ := pc
    exact ih pcx (mem_sortedChildren (mem_markLast hpc)) _ _ _

/-- C8: the renderer accepts a show_header switch but its output never
depends on it — setting show_header to false does not omit the header
lines; concretely, a one-device tree rendered plainly with show_header
false still begins with its bus header line. -/
theorem show_header_ignored {T : Type} (t : UsbTree T) (tos : T → Str)
    (colored sh : Bool) (ind br cor ver : Str) :
    (renderTree t tos (TreeStyle.mk colored sh ind br cor ver) =
      renderTree t tos (TreeStyle.mk colored true ind br cor ver)) ∧
    (renderTree
        (UsbTree.insertPath (UsbTree.empty (T := Str)) (DevicePath.mk 1 [1]) ['d'])
        (fun s => s)
        (TreeStyle.mk false false "    ".data "├── ".data "└── ".data "│   ".data) =
      "Bus 001\n└── d\n\n".data) := by
  constructor
  · have hbody : busBody t tos (TreeStyle.mk colored sh ind br cor ver) =
        busBody t tos (TreeStyle.mk colored true ind br cor ver) := by
      funext busKey
      rw [busBody, busBody]
      cases mapGet t.tree busKey with
      | none => rfl
      | some pt =>
        show (List.map
            (fun pc => fmtPortTree t.devices tos
              (TreeStyle.mk colored sh ind br cor ver) pc.1.2 [] pc.2 1)
            (markLast (sortedChildren pt))).flatten =
          (List.map
            (fun pc => fmtPortTree t.devices tos
              (TreeStyle.mk colored true ind br cor ver) pc.1.2 [] pc.2 1)
            (markLast (sortedChildren pt))).flatten
        congr 1
        apply List.map_congr_left
        intro pc hpc
        exact fmt_showHeader_irrel t.devices tos colored sh true ind br cor ver
          pc.1.2 [] pc.2 1
    have hhead : busHeaderLine (TreeStyle.mk colored sh ind br cor ver) =
        busHeaderLine (TreeStyle.mk colored true ind br cor ver) := rfl
    rw [renderTree, renderTree, hbody, hhead]
  · have hbody : fmtPortTree [(['1', ':', '1'], ['d'])] (fun s => s)
        (TreeStyle.mk false false "    ".data "├── ".data "└── ".data "│   ".data)
        (PortTree.mk (some ['1', ':', '1']) []) [] true 1 = "└── d\n".data := by
      rw [fmtPortTree_eq]
      decide
    show [] ++
        busHeaderLine
          (TreeStyle.mk false false "    ".data "├── ".data "└── ".data "│   ".data)
          ['1'] ++
        (fmtPortTree [(['1', ':', '1'], ['d'])] (fun s => s)
          (TreeStyle.mk false false "    ".data "├── ".data "└── ".data "│   ".data)
          (PortTree.mk (some ['1', ':', '1']) []) [] true 1 ++ []) ++ ['\n'] =
      "Bus 001\n└── d\n\n".data
    rw [hbody]
    decide

/-! Bus-root payloads and the renderer (claim C10). The Display loop
iterates only the sorted children of each bus root and never prints the
root node's own payload, so rendering is invariant under erasing every
bus-root payload. -/

def clearRoot {T : Type} : PortTree T → PortTree T
  | PortTree.mk _ cs => PortTree.mk none cs

/-- The same index with every bus trie's root payload erased. -/
def clearRootValues {T : Type} (t : UsbTree T) : UsbTree T :=
  UsbTree.mk t.devices (t.tree.map (fun e => (e.1, clearRoot e.2)))

theorem mapGet_map_snd {K V : Type} [DecidableEq K] (m : List (K × V)) (f : V → V)
    (k : K) :
    mapGet (m.map (fun e => (e.1, f e.2))) k = (mapGet m k).map f := by
  induction m with
  | nil => simp [mapGet]
  | cons e rest ih =>
    obtain ⟨k0, v0⟩ := e
    by_cases h0 : k0 = k
    · simp [mapGet, h0]
    · simp [mapGet, h0, ih]

theorem sortedChildren_clearRoot {T : Type} (pt : PortTree T) :
    sortedChildren (clearRoot pt) = sortedChildren pt := by
  cases pt
  rfl

theorem render_clearRootValues {T : Type} (t : UsbTree T) (tos : T → Str)
    (style : TreeStyle) :
    renderTree (clearRootValues t) tos style = renderTree t tos style := by
  have hbuses : UsbTree.buses (clearRootValues t) = UsbTree.buses t := by
    rw [UsbTree.buses, UsbTree.buses]
    apply congrArg
    rw [clearRootValues]
    rw [List.map_map]
    rfl
  have hbody : busBody (clearRootValues t) tos style = busBody t tos style := by
    funext busKey
    rw [busBody, busBody]
    show (match mapGet (clearRootValues t).tree busKey with
      | none => []
      | some pt =>
        (List.map (fun (pc : (Nat × PortTree Str) × Bool) =>
          fmtPortTree (clearRootValues t).devices tos style
            pc.1.2 [] pc.2 1) (markLast (sortedChildren pt))).flatten) = _
    rw [show (clearRootValues t).tree = t.tree.map (fun e => (e.1, clearRoot e.2))
      from rfl]
    rw [mapGet_map_snd]
    cases mapGet t.tree busKey with
    | none => rfl
    | some pt =>
      show (List.map (fun (pc : (Nat × PortTree Str) × Bool) =>
          fmtPortTree (clearRootValues t).devices tos style
            pc.1.2 [] pc.2 1) (markLast (sortedChildren (clearRoot pt)))).flatten =
        (List.map (fun (pc : (Nat × PortTree Str) × Bool) =>
          fmtPortTree t.devices tos style
            pc.1.2 [] pc.2 1) (markLast (sortedChildren pt))).flatten
      rw [sortedChildren_clearRoot]
      rfl
  rw [renderTree, renderTree, hbuses, hbody]

/-- C10: a value inserted at a bus-only path is present in the flat map,
returned by get_by_path, and included in the subtree of the bus root, yet
the renderer never reads bus-root payloads: rendering is unchanged when
all bus-root payloads are erased, so no line is emitted for the value. -/
theorem bus_root_invisible {T : Type} (t : UsbTree T) (p : DevicePath) (v : T)
    (tos : T → Str) (style : TreeStyle) (hroot : p.ports = []) :
    UsbTree.getByPath (UsbTree.insertPath t p v) p = some v ∧
    mapGet (UsbTree.insertPath t p v).devices p.toStr = some v ∧
    v ∈ UsbTree.getSubtreeByPath (UsbTree.insertPath t p v) p ∧
    renderTree (UsbTree.insertPath t p v) tos style =
      renderTree (clearRootValues (UsbTree.insertPath t p v)) tos style := by
  have hdev : mapGet (UsbTree.insertPath t p v).devices p.toStr = some v := by
    simp [UsbTree.insertPath, mapGet_mapInsert]
  refine ⟨hdev, hdev, ?_, (render_clearRootValues _ tos style).symm⟩
  have htr : mapGet (UsbTree.insertPath t p v).tree (u8ToStr p.bus) =
      some (PortTree.insert ((mapGet t.tree (u8ToStr p.bus)).getD PortTree.new)
        p.ports p.toStr) := by
    simp [UsbTree.insertPath, mapGet_mapInsert]
  rw [UsbTree.getSubtreeByPath, htr]
  rw [hroot, PortTree.get_insert_nil]
  show v ∈ (PortTree.descendants (PortTree.mk (some p.toStr) _)).filterMap _
  apply List.mem_filterMap.mpr
  refine ⟨p.toStr, ?_, hdev⟩
  show p.toStr ∈ PortTree.descendants (PortTree.mk (some p.toStr) _)
  rw [PortTree.descendants]
  simp

/-- C10 witness: at the concrete bus-only path 2:, the inserted value is
retrievable by get_by_path. -/
theorem bus_root_invisible_witness :
    UsbTree.getByPath
        (UsbTree.insertPath (UsbTree.empty (T := Nat)) (DevicePath.mk 2 []) 5)
        (DevicePath.mk 2 []) = some 5 :=
  (bus_root_invisible UsbTree.empty (DevicePath.mk 2 []) 5 u8ToStr
    TreeStyle.plainStyle rfl).1
